import Mathlib

/-!
Shallow embedding of `src/canvas_bot.py` (a Canvas-announcements → Discord
webhook poller) and proofs about its deduplication / delivery loop.

Python `str` values are modelled as `List Char` (one entry per code point,
matching Python's `len` / slicing semantics).  The process state that the
script threads through its two phases (the `seen` dict, the Discord POSTs
performed, the `save_seen` calls) is made explicit; network calls
(`canvas_get`, `requests.post`) are parameters of the model.
-/

/-- A Python `str`, as a list of code points. -/
abbrev Str := List Char

/-- Python truthiness-based `x or y` for an optional string `x`
(`None` and `""` are falsy). Used for `t.get("posted_at") or ...` chains. -/
def strOr (a : Option Str) (b : Str) : Str :=
  match a with
  | some s => if s = [] then b else s
  | none => b

/-- Code-point comparison, `a < b` in Python's string order. -/
def charLtB (a b : Char) : Bool := a.toNat < b.toNat

/-- Lexicographic `s <= t` over code points, Python's `str` order
(used by `list.sort(key=...)`). -/
def strLe : Str → Str → Bool
  | [], _ => true
  | _ :: _, [] => false
  | a :: as, b :: bs => if a = b then strLe as bs else charLtB a b

theorem charToNat_inj {a b : Char} (h : a.toNat = b.toNat) : a = b :=
  Char.ext (UInt32.ext h)

theorem strLe_refl (s : Str) : strLe s s = true := by
  induction s with
  | nil => rfl
  | cons a as ih => simp [strLe, ih]

theorem strLe_total (s t : Str) : strLe s t = true ∨ strLe t s = true := by
  induction s generalizing t with
  | nil => left; rfl
  | cons a as ih =>
    cases t with
    | nil => right; rfl
    | cons b bs =>
      by_cases hab : a = b
      · subst hab
        rcases ih bs with h | h
        · left; simp [strLe, h]
        · right; simp [strLe, h]
      · have hvals : a.toNat ≠ b.toNat := fun hv => hab (charToNat_inj hv)
        rcases Nat.lt_or_ge a.toNat b.toNat with h | h
        · left; simp [strLe, hab, charLtB, h]
        · have hlt : b.toNat < a.toNat := lt_of_le_of_ne h (fun hv => hvals hv.symm)
          have hba : b ≠ a := fun hv => hab hv.symm
          right
          simp [strLe, hba, charLtB, hlt]

theorem strLe_trans {s t u : Str} (h1 : strLe s t = true) (h2 : strLe t u = true) :
    strLe s u = true := by
  induction s generalizing t u with
  | nil => rfl
  | cons a as ih =>
    cases t with
    | nil => simp [strLe] at h1
    | cons b bs =>
      cases u with
      | nil => simp [strLe] at h2
      | cons c cs =>
        by_cases hab : a = b <;> by_cases hbc : b = c
        · subst hab; subst hbc
          simp only [strLe, if_pos rfl] at h1 h2 ⊢
          exact ih h1 h2
        · subst hab
          simp only [strLe, if_pos rfl] at h1
          simp only [strLe, if_neg hbc] at h2
          simp only [strLe, if_neg hbc]
          exact h2
        · subst hbc
          simp only [strLe, if_neg hab] at h1
          simp only [strLe, if_neg hab]
          exact h1
        · simp only [strLe, if_neg hab] at h1
          simp only [strLe, if_neg hbc] at h2
          simp only [charLtB, decide_eq_true_eq] at h1 h2
          have hac : a.toNat < c.toNat := Nat.lt_trans h1 h2
          have hne : a ≠ c := by
            intro h
            subst h
            exact Nat.lt_irrefl _ hac
          simp [strLe, hne, charLtB, hac]

/-- `"" <= s` always: empty timestamps sort first. -/
theorem strLe_nil_left (s : Str) : strLe [] s = true := rfl

/-- `s <= ""` only for `s = ""`. -/
theorem strLe_nil_right (c : Char) (s : Str) : strLe (c :: s) [] = false := rfl

/-! ### The `seen` dict (`seen_announcements.json`)

A Python `dict` keyed by announcement id, modelled as an association list in
insertion order.  `dictInsert` replaces the value in place when the key is
present (as `seen[tid] = posted` does) and appends otherwise. -/

abbrev Dict := List (Str × Str)

def dictLookup : Dict → Str → Option Str
  | [], _ => none
  | (k', v') :: d, k => if k' = k then some v' else dictLookup d k

def dictInsert : Dict → Str → Str → Dict
  | [], k, v => [(k, v)]
  | (k', v') :: d, k, v => if k' = k then (k, v) :: d else (k', v') :: dictInsert d k v

def dictHasKey (d : Dict) (k : Str) : Bool := (dictLookup d k).isSome

def dictKeys (d : Dict) : List Str := d.map Prod.fst

theorem dictLookup_insert_self (d : Dict) (k : Str) (v : Str) :
    dictLookup (dictInsert d k v) k = some v := by
  induction d with
  | nil => simp [dictInsert, dictLookup]
  | cons p d ih =>
    obtain ⟨k', v'⟩ := p
    by_cases h : k' = k
    · simp [dictInsert, h, dictLookup]
    · simp [dictInsert, h, dictLookup, ih]

theorem dictLookup_insert_ne (d : Dict) (k k' : Str) (v : Str) (h : k ≠ k') :
    dictLookup (dictInsert d k v) k' = dictLookup d k' := by
  induction d with
  | nil => simp [dictInsert, dictLookup, h]
  | cons p d ih =>
    obtain ⟨k0, v0⟩ := p
    by_cases h0 : k0 = k
    · subst h0
      simp [dictInsert, dictLookup, h]
    · have h' : k' ≠ k := fun hv => h hv.symm
      by_cases h1 : k0 = k'
      · simp [dictInsert, h0, dictLookup, h1, h']
      · simp [dictInsert, h0, dictLookup, h1, h', ih]

theorem dictHasKey_insert_mono (d : Dict) (k k' : Str) (v : Str)
    (h : dictHasKey d k' = true) : dictHasKey (dictInsert d k v) k' = true := by
  by_cases hk : k = k'
  · subst hk
    simp [dictHasKey, dictLookup_insert_self]
  · simpa [dictHasKey, dictLookup_insert_ne d k k' v hk] using h

/-! ### Content formatter (`strip_html`, `extract_named_links`)

The Python code processes announcement markup with two regular expressions:
`re.sub(r'<[^>]+>', '', text)` in `strip_html`, and
`re.findall(r'<a\s+[^>]*href="([^"]+)"[^>]*>(.*?)</a>', text, IGNORECASE|DOTALL)`
in `extract_named_links`.  The scanners below hand-compile those two
patterns, with the leftmost-match / greedy / lazy backtracking semantics of
Python's `re` made operational.  Recursion is structural over a fuel that
starts at the input length; every scanning step consumes at least one
character, so the fuel never runs out (`stripTagsGo_fuel_irrel` and friends
make this exact). -/

theorem dropWhile_len_le (p : Char → Bool) (l : Str) :
    (l.dropWhile p).length ≤ l.length := by
  induction l with
  | nil => simp
  | cons c cs ih => by_cases h : p c <;> simp [List.dropWhile, h] <;> omega

theorem takeWhile_len_le (p : Char → Bool) (l : Str) :
    (l.takeWhile p).length ≤ l.length := by
  induction l with
  | nil => simp
  | cons c cs ih => by_cases h : p c <;> simp [List.takeWhile, h] <;> omega

/-- ASCII-case-insensitive character equality (`re.IGNORECASE` on the ASCII
letters this pattern contains). -/
def lcEq (a b : Char) : Bool := a.toLower == b.toLower

/-- Whitespace class `\s` of `re`, restricted to the ASCII space characters. -/
def isPySpace (c : Char) : Bool :=
  c = ' ' || c = '\t' || c = '\n' || c = '\r' || c = '\x0b' || c = '\x0c'

/-- Does `s` start with `pat`, case-insensitively? -/
def startsWithCI : Str → Str → Bool
  | [], _ => true
  | _ :: _, [] => false
  | p :: ps, c :: cs => lcEq p c && startsWithCI ps cs

/-- Split `s` at the first (leftmost) case-insensitive occurrence of `pat`:
returns the text before it and the text after it.  This is exactly what the
lazy group `(.*?)pat` of a backtracking engine yields. -/
def splitFirstCI (pat : Str) : Str → Option (Str × Str)
  | [] => if startsWithCI pat [] then some ([], []) else none
  | c :: cs =>
    if startsWithCI pat (c :: cs) then some ([], (c :: cs).drop pat.length)
    else
      match splitFirstCI pat cs with
      | some (pre, post) => some (c :: pre, post)
      | none => none

theorem splitFirstCI_post_len_le (pat s : Str) (pre post : Str)
    (h : splitFirstCI pat s = some (pre, post)) : post.length ≤ s.length := by
  induction s generalizing pre with
  | nil =>
    simp only [splitFirstCI] at h
    rcases ite_eq_iff.mp h with ⟨_, h'⟩ | ⟨_, h'⟩
    · obtain ⟨-, rfl⟩ := Prod.mk.injEq .. ▸ Option.some.injEq .. ▸ h'
      simp
    · exact absurd h' (by simp)
  | cons c cs ih =>
    simp only [splitFirstCI] at h
    by_cases hsw : startsWithCI pat (c :: cs) = true
    · rw [if_pos hsw] at h
      obtain ⟨-, rfl⟩ := Prod.mk.injEq .. ▸ Option.some.injEq .. ▸ h
      simp
    · rw [if_neg hsw] at h
      cases hrec : splitFirstCI pat cs with
      | none => rw [hrec] at h; exact absurd h (by simp)
      | some pr =>
        obtain ⟨pre', post'⟩ := pr
        rw [hrec] at h
        obtain ⟨-, rfl⟩ := Prod.mk.injEq .. ▸ Option.some.injEq .. ▸ h
        have := ih pre' hrec
        simp only [List.length_cons]
        omega

/-- The literal `href="` of the pattern (its letters case-insensitive). -/
def hrefPat : Str := 'h' :: 'r' :: 'e' :: 'f' :: '=' :: '"' :: []

/-- The literal `</a>` closing the anchor (case-insensitive). -/
def closeAPat : Str := '<' :: '/' :: 'a' :: '>' :: []

/-- All suffix positions at which `href="` can be matched by
`[^>]*href="`, i.e. occurrences of `href="` reachable without crossing a
`>`.  Listed left to right. -/
def hrefCandidates : Str → List Str
  | [] => []
  | c :: cs =>
    if c = '>' then []
    else
      let tail := hrefCandidates cs
      if startsWithCI hrefPat (c :: cs) then (c :: cs) :: tail else tail

theorem hrefCandidates_mem_len_le (s : Str) (cand : Str)
    (h : cand ∈ hrefCandidates s) : cand.length ≤ s.length := by
  induction s with
  | nil => simp [hrefCandidates] at h
  | cons c cs ih =>
    simp only [hrefCandidates] at h
    by_cases hgt : c = '>'
    · simp [hgt] at h
    · rw [if_neg hgt] at h
      by_cases hsw : startsWithCI hrefPat (c :: cs) = true
      · rw [if_pos hsw] at h
        rcases List.mem_cons.mp h with rfl | h'
        · exact Nat.le_refl _
        · have := ih h'
          simp only [List.length_cons]
          omega
      · rw [if_neg hsw] at h
        have := ih h
        simp only [List.length_cons]
        omega

/-- Try to finish a match of `href="([^"]+)"[^>]*>` at a candidate
position (which starts with `href="`): the greedy `([^"]+)` runs to the
next `"` and must be non-empty, then `[^>]*>` runs to the next `>`.
Returns the captured URL and the text after the opening tag's `>`. -/
def tryHrefCandidate (s : Str) : Option (Str × Str) :=
  if (s.drop 6).takeWhile (fun c => c ≠ '"') = [] then none
  else
    match (s.drop 6).dropWhile (fun c => c ≠ '"') with
    | [] => none
    | _ :: rest3 =>
      match rest3.dropWhile (fun c => c ≠ '>') with
      | [] => none
      | _ :: rest5 => some ((s.drop 6).takeWhile (fun c => c ≠ '"'), rest5)

theorem tryHrefCandidate_len_le (s : Str) (res : Str × Str)
    (h : tryHrefCandidate s = some res) : res.2.length ≤ s.length := by
  unfold tryHrefCandidate at h
  split at h
  · exact absurd h (by simp)
  · split at h
    · exact absurd h (by simp)
    · rename_i q rest3 h2
      split at h
      · exact absurd h (by simp)
      · rename_i g rest5 h4
        injection h with h
        subst h
        have h2le := dropWhile_len_le (fun c => decide (c ≠ '"')) (s.drop 6)
        have h4le := dropWhile_len_le (fun c => decide (c ≠ '>')) rest3
        have hdl := List.length_drop 6 s
        rw [h2] at h2le
        rw [h4] at h4le
        simp only [List.length_cons] at h2le h4le
        show rest5.length ≤ s.length
        omega

/-- Greedy choice over the `href="` candidates: a backtracking engine gives
the first `[^>]*` as many characters as possible, so the **latest**
candidate that lets the rest of the pattern (`…"[^>]*>(.*?)</a>`) succeed
wins.  Candidates are listed left to right, so later ones are tried first. -/
def pickGreedy : List Str → Option (Str × Str × Str)
  | [] => none
  | cand :: more =>
    match pickGreedy more with
    | some r => some r
    | none =>
      match tryHrefCandidate cand with
      | none => none
      | some (url, afterTag) =>
        match splitFirstCI closeAPat afterTag with
        | none => none
        | some (text, after) => some (url, text, after)

theorem pickGreedy_len_le (cands : List Str) (n : Nat)
    (hb : ∀ cand ∈ cands, cand.length ≤ n) (res : Str × Str × Str)
    (h : pickGreedy cands = some res) : res.2.2.length ≤ n := by
  induction cands with
  | nil => exact absurd h (by simp [pickGreedy])
  | cons cand more ih =>
    simp only [pickGreedy] at h
    split at h
    · rename_i res' hrec
      injection h with h
      subst h
      exact ih (fun c hc => hb c (List.mem_cons_of_mem _ hc)) hrec
    · split at h
      · exact absurd h (by simp)
      · rename_i url afterTag htc
        split at h
        · exact absurd h (by simp)
        · rename_i text after hsp
          injection h with h
          subst h
          have h1 := splitFirstCI_post_len_le closeAPat afterTag text after hsp
          have h2 := tryHrefCandidate_len_le cand (url, afterTag) htc
          have h3 := hb cand (List.mem_cons_self ..)
          simp only at h2
          show after.length ≤ n
          omega

/-- Attempt the whole anchor pattern
`<a\s+[^>]*href="([^"]+)"[^>]*>(.*?)</a>` at the start of `s`.  On success
returns the URL capture, the inner-text capture, and the rest of the input
after `</a>`. -/
def matchAnchorAt (s : Str) : Option (Str × Str × Str) :=
  match s with
  | a :: c :: cs =>
    if a = '<' && lcEq 'a' c then
      if cs.takeWhile isPySpace = [] then none
      else pickGreedy (hrefCandidates (cs.dropWhile isPySpace))
    else none
  | _ => none

theorem matchAnchorAt_len_lt (s : Str) (res : Str × Str × Str)
    (h : matchAnchorAt s = some res) : res.2.2.length < s.length := by
  match s with
  | [] => exact absurd h (by simp [matchAnchorAt])
  | [x] => exact absurd h (by simp [matchAnchorAt])
  | a :: c :: cs =>
    simp only [matchAnchorAt] at h
    by_cases h1 : (a = '<' && lcEq 'a' c) = true
    · rw [if_pos h1] at h
      by_cases h2 : cs.takeWhile isPySpace = []
      · simp [h2] at h
      · rw [if_neg h2] at h
        have hd : (cs.dropWhile isPySpace).length ≤ cs.length := dropWhile_len_le _ _
        have hcand : ∀ cand ∈ hrefCandidates (cs.dropWhile isPySpace),
            cand.length ≤ cs.length := by
          intro cand hc
          have := hrefCandidates_mem_len_le _ cand hc
          omega
        have := pickGreedy_len_le _ cs.length hcand res h
        simp only [List.length_cons]
        omega
    · rw [if_neg h1] at h
      exact absurd h (by simp)

/-- `re.findall` driver for the anchor pattern: scan left to right, take the
leftmost match, continue after it; on failure advance one character.
Structural recursion on a fuel that `findAnchors` seeds with the input
length; `matchAnchorAt_len_lt` shows each step consumes at least one
character, and `findAnchorsGo_fuel_irrel` that the seed is enough. -/
def findAnchorsGo : Nat → Str → List (Str × Str)
  | _, [] => []
  | 0, _ :: _ => []
  | fuel + 1, c :: cs =>
    match matchAnchorAt (c :: cs) with
    | some (url, text, rest) => (url, text) :: findAnchorsGo fuel rest
    | none => findAnchorsGo fuel cs

/-- All `(url, innerText)` captures of the anchor pattern over `s`, in
document order. -/
def findAnchors (s : Str) : List (Str × Str) := findAnchorsGo s.length s

theorem findAnchorsGo_fuel_irrel (fuel : Nat) :
    ∀ (fuel₂ : Nat) (s : Str), s.length ≤ fuel → s.length ≤ fuel₂ →
      findAnchorsGo fuel s = findAnchorsGo fuel₂ s := by
  induction fuel with
  | zero =>
    intro fuel₂ s h1 h2
    have hs : s = [] := List.eq_nil_of_length_eq_zero (Nat.le_zero.mp h1)
    subst hs
    cases fuel₂ <;> rfl
  | succ fuel ih =>
    intro fuel₂ s h1 h2
    cases s with
    | nil => cases fuel₂ <;> rfl
    | cons c cs =>
      cases fuel₂ with
      | zero => simp at h2
      | succ f2 =>
        simp only [findAnchorsGo]
        cases hm : matchAnchorAt (c :: cs) with
        | none =>
          simp only [List.length_cons] at h1 h2
          exact ih f2 cs (by omega) (by omega)
        | some res =>
          obtain ⟨url, text, rest⟩ := res
          have hlt := matchAnchorAt_len_lt (c :: cs) (url, text, rest) hm
          simp only [List.length_cons] at h1 h2 hlt
          show (url, text) :: findAnchorsGo fuel rest = (url, text) :: findAnchorsGo f2 rest
          rw [ih f2 rest (by omega) (by omega)]

/-- `re.sub(r'<[^>]+>', '', text)`: delete every leftmost-scanned tag (a
`<`, one or more non-`>` characters, then `>`); where the pattern cannot
match, the character is kept and scanning moves on by one. -/
def stripTagsGo : Nat → Str → Str
  | _, [] => []
  | 0, s => s
  | fuel + 1, c :: cs =>
    if c = '<' then
      if cs.takeWhile (fun x => x ≠ '>') = [] then c :: stripTagsGo fuel cs
      else
        match cs.dropWhile (fun x => x ≠ '>') with
        | [] => c :: stripTagsGo fuel cs
        | _ :: rest2 => stripTagsGo fuel rest2
    else c :: stripTagsGo fuel cs

def stripTags (s : Str) : Str := stripTagsGo s.length s

theorem stripTagsGo_fuel_irrel (fuel : Nat) :
    ∀ (fuel₂ : Nat) (s : Str), s.length ≤ fuel → s.length ≤ fuel₂ →
      stripTagsGo fuel s = stripTagsGo fuel₂ s := by
  induction fuel with
  | zero =>
    intro fuel₂ s h1 h2
    have hs : s = [] := List.eq_nil_of_length_eq_zero (Nat.le_zero.mp h1)
    subst hs
    cases fuel₂ <;> rfl
  | succ fuel ih =>
    intro fuel₂ s h1 h2
    cases s with
    | nil => cases fuel₂ <;> rfl
    | cons c cs =>
      cases fuel₂ with
      | zero => simp at h2
      | succ f2 =>
        simp only [stripTagsGo, List.length_cons] at h1 h2 ⊢
        by_cases hc : c = '<'
        · rw [if_pos hc, if_pos hc]
          by_cases hmid : cs.takeWhile (fun x => x ≠ '>') = []
          · rw [if_pos hmid, if_pos hmid, ih f2 cs (by omega) (by omega)]
          · rw [if_neg hmid, if_neg hmid]
            have hdw := dropWhile_len_le (fun x => decide (x ≠ '>')) cs
            cases hrest : cs.dropWhile (fun x => x ≠ '>') with
            | nil => rw [ih f2 cs (by omega) (by omega)]
            | cons g rest2 =>
              rw [hrest] at hdw
              simp only [List.length_cons] at hdw
              exact ih f2 rest2 (by omega) (by omega)
        · rw [if_neg hc, if_neg hc, ih f2 cs (by omega) (by omega)]

/-- `html.unescape`, modelled for the five common entities
(`&amp;` `&lt;` `&gt;` `&quot;` `&#39;`); any other text, including other
entities, passes through unchanged.  The claims under proof never hinge on
further entries of Python's full entity table. -/
def htmlUnescapeGo : Nat → Str → Str
  | _, [] => []
  | 0, s => s
  | fuel + 1, c :: cs =>
    if c = '&' then
      if List.isPrefixOf "amp;".data cs then '&' :: htmlUnescapeGo fuel (cs.drop 4)
      else if List.isPrefixOf "lt;".data cs then '<' :: htmlUnescapeGo fuel (cs.drop 3)
      else if List.isPrefixOf "gt;".data cs then '>' :: htmlUnescapeGo fuel (cs.drop 3)
      else if List.isPrefixOf "quot;".data cs then '"' :: htmlUnescapeGo fuel (cs.drop 5)
      else if List.isPrefixOf "#39;".data cs then Char.ofNat 39 :: htmlUnescapeGo fuel (cs.drop 4)
      else c :: htmlUnescapeGo fuel cs
    else c :: htmlUnescapeGo fuel cs

def htmlUnescape (s : Str) : Str := htmlUnescapeGo s.length s

theorem htmlUnescapeGo_fuel_irrel (fuel : Nat) :
    ∀ (fuel₂ : Nat) (s : Str), s.length ≤ fuel → s.length ≤ fuel₂ →
      htmlUnescapeGo fuel s = htmlUnescapeGo fuel₂ s := by
  induction fuel with
  | zero =>
    intro fuel₂ s h1 h2
    have hs : s = [] := List.eq_nil_of_length_eq_zero (Nat.le_zero.mp h1)
    subst hs
    cases fuel₂ <;> rfl
  | succ fuel ih =>
    intro fuel₂ s h1 h2
    cases s with
    | nil => cases fuel₂ <;> rfl
    | cons c cs =>
      cases fuel₂ with
      | zero => simp at h2
      | succ f2 =>
        have hd3 : (cs.drop 3).length ≤ cs.length := by
          rw [List.length_drop]; omega
        have hd4 : (cs.drop 4).length ≤ cs.length := by
          rw [List.length_drop]; omega
        have hd5 : (cs.drop 5).length ≤ cs.length := by
          rw [List.length_drop]; omega
        simp only [List.length_cons] at h1 h2
        simp only [htmlUnescapeGo]
        by_cases hc : c = '&'
        · rw [if_pos hc, if_pos hc]
          by_cases p1 : List.isPrefixOf "amp;".data cs = true
          · rw [if_pos p1, if_pos p1, ih f2 (cs.drop 4) (by omega) (by omega)]
          · rw [if_neg p1, if_neg p1]
            by_cases p2 : List.isPrefixOf "lt;".data cs = true
            · rw [if_pos p2, if_pos p2, ih f2 (cs.drop 3) (by omega) (by omega)]
            · rw [if_neg p2, if_neg p2]
              by_cases p3 : List.isPrefixOf "gt;".data cs = true
              · rw [if_pos p3, if_pos p3, ih f2 (cs.drop 3) (by omega) (by omega)]
              · rw [if_neg p3, if_neg p3]
                by_cases p4 : List.isPrefixOf "quot;".data cs = true
                · rw [if_pos p4, if_pos p4, ih f2 (cs.drop 5) (by omega) (by omega)]
                · rw [if_neg p4, if_neg p4]
                  by_cases p5 : List.isPrefixOf "#39;".data cs = true
                  · rw [if_pos p5, if_pos p5, ih f2 (cs.drop 4) (by omega) (by omega)]
                  · rw [if_neg p5, if_neg p5, ih f2 cs (by omega) (by omega)]
        · rw [if_neg hc, if_neg hc, ih f2 cs (by omega) (by omega)]

/-- Python `str.strip()` (leading and trailing whitespace removed), for the
ASCII space class. -/
def pyStrip (s : Str) : Str :=
  ((s.dropWhile isPySpace).reverse.dropWhile isPySpace).reverse

/-- `strip_html`: quick-and-dirty html → plaintext
(`re.sub(r'<[^>]+>', '', text)`, then `html.unescape`, then `.strip()`);
empty/None input short-circuits to the empty string. -/
def strip_html (s : Str) : Str :=
  if s = [] then [] else pyStrip (htmlUnescape (stripTags s))

/-- The Markdown rendering `f"[{text}]({url})"` appended per kept link. -/
def fmtLink (text url : Str) : Str :=
  ('[' :: text) ++ (']' :: '(' :: url) ++ [')']

/-- The `(displayText, url)` pairs of `extract_named_links` at the point of
the `if text and url` filter: inner text stripped of markup, URL
entity-decoded, both required non-empty; document order preserved. -/
def extractPairs (s : Str) : List (Str × Str) :=
  (findAnchors s).filterMap (fun p =>
    if strip_html p.2 ≠ [] && htmlUnescape p.1 ≠ [] then
      some (strip_html p.2, htmlUnescape p.1)
    else none)

/-- `extract_named_links`: the kept pairs, already rendered as Markdown
links (the Python loop appends `f"[{text}]({url})"` directly). -/
def extract_named_links (s : Str) : List Str :=
  if s = [] then [] else (extractPairs s).map (fun p => fmtLink p.1 p.2)

/-! ### Configuration constants and the course → role lookup -/

def CANVAS_DOMAIN : Str := "feu.instructure.com".data

def INITIAL_RUN_SEND : Bool := true

def COURSE_IDS : List Int :=
  [106566, 106734, 107500, 107253, 107072, 107047, 108084, 107246, 107342, 108172]

def COURSE_ROLES : List Str :=
  ["CCS0005".data, "CCS0005".data, "CCS0007".data, "CCS0007".data, "GED0085".data,
   "GED0001".data, "GED".data, "GED".data, "IT0003".data, "NSTP1".data]

def POLL_INTERVAL : Nat := 60

/-- A dynamically-typed Python value as far as this script compares them:
an `int` or a `str`. -/
inductive PyVal where
  | intV (n : Int)
  | strV (s : Str)
deriving DecidableEq

/-- The exception outcomes the script can hit. -/
inductive PyErr where
  | valueError
  | typeError
  | httpError
  | fetchError
deriving DecidableEq

/-- A fallible result (`try`/`except` boundary). -/
inductive Res (α : Type) where
  | ok (a : α)
  | err (e : PyErr)
deriving DecidableEq

/-- Python `n == v` for an `int` list element against a probe value:
`int == str` is `False`, never an error. -/
def pyEqInt (n : Int) (v : PyVal) : Bool :=
  match v with
  | .intV m => n == m
  | .strV _ => false

def pyIndexAux (v : PyVal) : List Int → Option Nat
  | [] => none
  | n :: rest => if pyEqInt n v then some 0 else (pyIndexAux v rest).map Nat.succ

/-- Python `list.index(v)`: index of the first element `== v`,
`ValueError` (here: `none`) if there is none. -/
def pyIndex (l : List Int) (v : PyVal) : Option Nat := pyIndexAux v l

/-- `course_roles(cid)`: `COURSE_ROLES[COURSE_IDS.index(cid)]`. -/
def course_roles (cid : PyVal) : Res Str :=
  match pyIndex COURSE_IDS cid with
  | none => .err .valueError
  | some i =>
    match COURSE_ROLES[i]? with
    | none => .err .valueError
    | some role => .ok role

/-! ### Announcements and the notifier (`send_to_discord`) -/

/-- One Canvas discussion topic as the script reads it (`t.get(...)` keys).
`none` models an absent key or a stored `null`. -/
structure Topic where
  id : Int
  title : Option Str
  message : Option Str
  posted_at : Option Str
  created_at : Option Str
  html_url : Option Str
deriving DecidableEq

structure Attachment where
  display_name : Option Str
  url : Option Str
deriving DecidableEq

/-- The embed object built by `send_to_discord`. -/
structure Embed where
  title : Str
  description : Str
  url : Option Str
  color : Nat
  footerText : Str
  timestamp : Option Str
  author : Option Str
  fields : Option (List (Str × Str))
deriving DecidableEq

/-- The JSON payload POSTed to the webhook. -/
structure Payload where
  content : Str
  embed : Embed
deriving DecidableEq

/-- The description limit of `send_to_discord`:
`(body[:1800] + "...") if len(body) > 1900 else body`. -/
def truncDesc (body : Str) : Str :=
  if 1900 < body.length then body.take 1800 ++ ('.' :: '.' :: '.' :: []) else body

/-- Python truthiness on an optional string field (`if posted_at:` etc.). -/
def truthyOpt (o : Option Str) : Option Str :=
  match o with
  | some s => if s = [] then none else some s
  | none => none

/-- The attachment fields block of the embed. -/
def attachmentFields (atts : List Attachment) : Option (List (Str × Str)) :=
  if atts = [] then none
  else
    let fields := atts.filterMap (fun a =>
      match a.url with
      | some link =>
        if link = [] then none
        else some ("Attachment".data, fmtLink (a.display_name.getD "file".data) link)
      | none => none)
    if fields = [] then none else some fields

/-- `send_to_discord`.  `postOk` stands for the network outcome of the
`requests.post` + `raise_for_status()` pair.  The returned list holds the
POSTs actually attempted (empty when an exception fires before the POST),
and the `Res` is the call's outcome.  `body` is `Option Str` because one
call site passes `course_map.get(cid)` in that position; `len(None)`
raises `TypeError`. -/
def send_to_discord (postOk : Bool) (cid : PyVal) (title : Str) (body : Option Str)
    (course_name url author : Option Str) (attachments : List Attachment)
    (posted_at : Option Str) : List Payload × Res Unit :=
  match course_roles cid with
  | .err e => ([], .err e)
  | .ok discord_role =>
    match body with
    | none => ([], .err .typeError)
    | some b =>
      let embed : Embed := {
        title := if title = [] then "(no title)".data else title
        description := truncDesc b
        url := url
        color := 0x3498db
        footerText :=
          match course_name with
          | some cn => if cn = [] then "Canvas Announcement".data else cn
          | none => "Canvas Announcement".data
        timestamp := truthyOpt posted_at
        author := truthyOpt author
        fields := attachmentFields attachments }
      let payload : Payload := {
        content := ('@' :: discord_role) ++ " 🚨 New Canvas Announcement!".data
        embed := embed }
      ([payload], if postOk then .ok () else .err .httpError)

/-! ### Message-body composition shared by the two send loops -/

/-- `"\n".join(named_links)`. -/
def joinNL : List Str → Str
  | [] => []
  | [x] => x
  | x :: xs => x ++ '\n' :: joinNL xs

/-- `body = strip_html(raw)`, then
`body += "\n\n🔗 **Links:**\n" + "\n".join(named_links)` when any links
were extracted. -/
def composeBody (stripped : Str) (links : List Str) : Str :=
  if links = [] then stripped
  else stripped ++ "\n\n🔗 **Links:**\n".data ++ joinNL links

/-- The full body string handed to the notifier for a topic. -/
def messageBody (t : Topic) : Str :=
  composeBody (strip_html (t.message.getD [])) (extract_named_links (t.message.getD []))

/-- `str(t.get("id"))`, the `seen` key. -/
def tidOf (t : Topic) : Str := (toString t.id).data

/-- Effective timestamp computed in the bootstrap collection:
`t.get("posted_at") or t.get("created_at") or ""`. -/
def bootstrapRecordedTs (t : Topic) : Str := strOr t.posted_at (strOr t.created_at [])

/-- Timestamp the steady-state loop records on success:
`t.get("posted_at") or ""` (no `created_at` fallback). -/
def steadyRecordedTs (t : Topic) : Str := strOr t.posted_at []

/-- `t.get("html_url") or f"https://{domain}/courses/{cid}/discussion_topics/{id}"`. -/
def topicUrl (cid : Int) (t : Topic) : Str :=
  strOr t.html_url
    ("https://".data ++ CANVAS_DOMAIN ++ "/courses/".data ++ (toString cid).data
      ++ "/discussion_topics/".data ++ (toString t.id).data)

/-! ### Orchestrator: bootstrap pass and steady-state loop (`main`)

`COURSE_IDS` is non-empty, so `main` takes the static branch:
`course_ids = COURSE_IDS` and `course_map` is filled per course (modelled
as the `courseMap` parameter, since its values come off the network).
The `oracle` parameter decides each `requests.post` outcome, indexed by
how many POSTs happened so far. -/

/-- An entry of `initial_found`: `(cid, t, tid, posted)`. -/
structure BItem where
  cid : Int
  t : Topic
  tid : Str
  posted : Str
deriving DecidableEq

def mkItems (cid : Int) (topics : List Topic) : List BItem :=
  topics.map (fun t => ⟨cid, t, tidOf t, bootstrapRecordedTs t⟩)

/-- The bootstrap collection loop: one fetch per configured course, the
per-course `try`/`except` turning a fetch failure into no contribution. -/
def collectInitial (fetch : Int → Res (List Topic)) (courseIds : List Int) : List BItem :=
  courseIds.flatMap (fun cid =>
    match fetch cid with
    | .ok topics => mkItems cid topics
    | .err _ => [])

/-- Sort key of `initial_found.sort(key=lambda x: x[3] or "")` — `x[3]` is
already a plain string, so the key is `x.posted` itself. -/
def bootKeyLe (x y : BItem) : Prop := strLe x.posted y.posted = true

instance : DecidableRel bootKeyLe := fun x y => by
  unfold bootKeyLe
  infer_instance

instance : IsTotal BItem bootKeyLe :=
  ⟨fun x y => strLe_total x.posted y.posted⟩

instance : IsTrans BItem bootKeyLe :=
  ⟨fun _ _ _ h1 h2 => strLe_trans h1 h2⟩

/-- Python's `list.sort` is a stable ascending sort; any stable sort
realises it, and `List.insertionSort` is the stable one Mathlib provides. -/
def sortItems (items : List BItem) : List BItem := items.insertionSort bootKeyLe

/-- The mark-only bootstrap (`INITIAL_RUN_SEND = False`): every item is
recorded unconditionally; `save_seen` runs once afterwards. -/
def markOnlyPass (items : List BItem) (seen : Dict) : Dict :=
  items.foldl (fun s it => dictInsert s it.tid it.posted) seen

/-- Observable state of the send-existing bootstrap: the `seen` dict, the
POSTs attempted (tagged with the item's `tid`), and each `save_seen`
snapshot. -/
structure RunState where
  seen : Dict
  deliveries : List (Str × Payload)
  saves : List Dict
deriving DecidableEq

/-- The `send_to_discord(cid, title, body, course_map.get(cid), url)` call
of the bootstrap send loop. -/
def bootAttempt (oracle : Nat → Bool) (courseMap : Int → Option Str)
    (st : RunState) (it : BItem) : List Payload × Res Unit :=
  send_to_discord (oracle st.deliveries.length) (.intV it.cid)
    (it.t.title.getD "(no title)".data)
    (some (messageBody it.t))
    (courseMap it.cid) (some (topicUrl it.cid it.t)) none [] none

/-- One iteration of the send-existing bootstrap loop body: skip when
already seen; otherwise send, and only on success `seen[tid] = posted`
followed by `save_seen(seen)`. -/
def bootSendItem (oracle : Nat → Bool) (courseMap : Int → Option Str)
    (st : RunState) (it : BItem) : RunState :=
  if dictHasKey st.seen it.tid then st
  else
    let pr := bootAttempt oracle courseMap st it
    let st' := { st with deliveries := st.deliveries ++ pr.1.map (fun p => (it.tid, p)) }
    match pr.2 with
    | .ok _ =>
      let seen' := dictInsert st'.seen it.tid it.posted
      { st' with seen := seen', saves := st'.saves ++ [seen'] }
    | .err _ => st'

def bootSendPass (oracle : Nat → Bool) (courseMap : Int → Option Str)
    (items : List BItem) (st : RunState) : RunState :=
  items.foldl (bootSendItem oracle courseMap) st

/-- The whole bootstrap phase of `main`, starting from the loaded `seen`. -/
def runBootstrap (initialRunSend : Bool) (oracle : Nat → Bool)
    (courseMap : Int → Option Str) (fetch : Int → Res (List Topic))
    (seen0 : Dict) : RunState :=
  let items := sortItems (collectInitial fetch COURSE_IDS)
  if initialRunSend = false then
    let s := markOnlyPass items seen0
    { seen := s, deliveries := [], saves := [s] }
  else
    bootSendPass oracle courseMap items { seen := seen0, deliveries := [], saves := [] }

/-- Observable state of the steady-state loop; `fetched` records the
courses whose `fetch_announcements_for_course` call was reached. -/
structure SteadyState where
  seen : Dict
  deliveries : List (Str × Payload)
  saves : List Dict
  fetched : List Int
deriving DecidableEq

/-- Sort key of `topics.sort(key=lambda t: t.get("posted_at") or "")`. -/
def steadyKeyLe (x y : Topic) : Prop :=
  strLe (steadyRecordedTs x) (steadyRecordedTs y) = true

instance : DecidableRel steadyKeyLe := fun x y => by
  unfold steadyKeyLe
  infer_instance

instance : IsTotal Topic steadyKeyLe :=
  ⟨fun x y => strLe_total (steadyRecordedTs x) (steadyRecordedTs y)⟩

instance : IsTrans Topic steadyKeyLe :=
  ⟨fun _ _ _ h1 h2 => strLe_trans h1 h2⟩

def steadySortTopics (topics : List Topic) : List Topic :=
  topics.insertionSort steadyKeyLe

/-- One iteration of the steady-state inner loop body.  The call here is
`send_to_discord(title, body, course_map.get(cid), url)` — four positional
arguments, so `title` lands in the course-id parameter, `body` in the
title parameter, `course_map.get(cid)` in the body parameter and `url` in
the course-name parameter. -/
def steadyTopicStep (oracle : Nat → Bool) (courseMap : Int → Option Str)
    (cid : Int) (st : SteadyState) (t : Topic) : SteadyState :=
  if dictHasKey st.seen (tidOf t) then st
  else
    let title := t.title.getD "(no title)".data
    let pr := send_to_discord (oracle st.deliveries.length) (.strV title)
      (messageBody t) (courseMap cid) (some (topicUrl cid t)) none none [] none
    let st' := { st with deliveries := st.deliveries ++ pr.1.map (fun p => (tidOf t, p)) }
    match pr.2 with
    | .ok _ =>
      let seen' := dictInsert st'.seen (tidOf t) (steadyRecordedTs t)
      { st' with seen := seen', saves := st'.saves ++ [seen'] }
    | .err _ => st'

/-- The per-course loop of one steady-state cycle.  The fetch is *not*
wrapped in a per-course handler: an error propagates to the cycle-level
`except`, so the remaining courses of the cycle are not reached. -/
def steadyCoursesGo (oracle : Nat → Bool) (fetch : Int → Res (List Topic))
    (courseMap : Int → Option Str) : List Int → SteadyState → SteadyState
  | [], st => st
  | cid :: rest, st =>
    match fetch cid with
    | .err _ => { st with fetched := st.fetched ++ [cid] }
    | .ok topics =>
      let st' := (steadySortTopics topics).foldl (steadyTopicStep oracle courseMap cid)
        { st with fetched := st.fetched ++ [cid] }
      steadyCoursesGo oracle fetch courseMap rest st'

/-- One full steady-state cycle (the body of `while True`). -/
def steadyCycle (oracle : Nat → Bool) (fetch : Int → Res (List Topic))
    (courseMap : Int → Option Str) (st : SteadyState) : SteadyState :=
  steadyCoursesGo oracle fetch courseMap COURSE_IDS st

/-- `n` steady-state cycles; `fetchPlan k` is the network behaviour of
cycle `k`. -/
def steadyRun (oracle : Nat → Bool) (fetchPlan : Nat → Int → Res (List Topic))
    (courseMap : Int → Option Str) : Nat → Nat → SteadyState → SteadyState
  | _, 0, st => st
  | k, n + 1, st =>
    steadyRun oracle fetchPlan courseMap (k + 1) n
      (steadyCycle oracle (fetchPlan k) courseMap st)

/-- All `(tid, payload)` POSTs of a whole run: bootstrap phase followed by
`n` steady-state cycles starting from the bootstrap's `seen`. -/
def runDeliveries (initialRunSend : Bool) (oracle : Nat → Bool)
    (courseMap : Int → Option Str) (bfetch : Int → Res (List Topic))
    (fetchPlan : Nat → Int → Res (List Topic)) (n : Nat) (seen0 : Dict) :
    List (Str × Payload) :=
  let b := runBootstrap initialRunSend oracle courseMap bfetch seen0
  let s := steadyRun oracle fetchPlan courseMap 0 n
    { seen := b.seen, deliveries := [], saves := [], fetched := [] }
  b.deliveries ++ s.deliveries

/-! ### Shared concrete example data used by the closed-form witnesses -/

def exTopic : Topic :=
  { id := 5
    title := some ("Hello".data)
    message := none
    posted_at := some ("2024-01-01T00:00Z".data)
    created_at := none
    html_url := none }

def exItem : BItem := ⟨106566, exTopic, tidOf exTopic, bootstrapRecordedTs exTopic⟩

/-- A fetch schedule where only course 106566 has one announcement. -/
def exFetch : Int → Res (List Topic) :=
  fun c => if c = 106566 then .ok [exTopic] else .ok []

/-- A fetch schedule whose first configured course fails. -/
def exFetchFail : Int → Res (List Topic) :=
  fun c => if c = 106566 then .err .fetchError else .ok [exTopic]

/-! ### C5: description truncation -/

/-- C5: for every body handed to the notifier, a body longer than 1900
characters is delivered as exactly its first 1800 characters followed by
the 3-character ellipsis (total 1803), and a body of at most 1800
characters is delivered unmodified. -/
theorem C5_truncation (b : Str) :
    (1900 < b.length →
      truncDesc b = b.take 1800 ++ ('.' :: '.' :: '.' :: []) ∧
      (truncDesc b).length = 1803) ∧
    (b.length ≤ 1800 → truncDesc b = b) := by
  constructor
  · intro h
    constructor
    · simp [truncDesc, h]
    · simp only [truncDesc, if_pos h, List.length_append, List.length_take, List.length_cons,
        List.length_nil]
      omega
  · intro h
    have h' : ¬ 1900 < b.length := by omega
    simp [truncDesc, h']

/-- C5 witness: a 2000-character body becomes its first 1800 characters
plus the ellipsis (1803 total); a 1700-character body is unchanged. -/
theorem C5_truncation_witness :
    truncDesc (List.replicate 2000 'x') =
      List.replicate 1800 'x' ++ ('.' :: '.' :: '.' :: []) ∧
    (truncDesc (List.replicate 2000 'x')).length = 1803 ∧
    truncDesc (List.replicate 1700 'y') = List.replicate 1700 'y' := by
  refine ⟨?_, ?_, ?_⟩
  · have h := (C5_truncation (List.replicate 2000 'x')).1
      (by rw [List.length_replicate]; omega)
    rw [h.1, List.take_replicate]
    have hm : (1800 : Nat) ⊓ 2000 = 1800 := by omega
    rw [hm]
  · exact ((C5_truncation (List.replicate 2000 'x')).1
      (by rw [List.length_replicate]; omega)).2
  · exact (C5_truncation (List.replicate 1700 'y')).2
      (by rw [List.length_replicate]; omega)

/-! ### C10: the two phases record different timestamps -/

/-- C10: for an announcement with no (or empty) posted timestamp but a
non-empty creation timestamp, the bootstrap pass computes the creation
timestamp as the value to record in the seen store, while the steady-state
loop's recording expression falls back only from `posted_at` to the empty
string — the two phases record different values for the same announcement. -/
theorem C10_phase_timestamps (t : Topic) (c : Str)
    (hp : t.posted_at = none ∨ t.posted_at = some [])
    (hc : t.created_at = some c) (hne : c ≠ []) :
    bootstrapRecordedTs t = c ∧ steadyRecordedTs t = [] ∧
    bootstrapRecordedTs t ≠ steadyRecordedTs t := by
  rcases hp with hp | hp <;>
    simp [bootstrapRecordedTs, steadyRecordedTs, strOr, hp, hc, hne]

/-- C10 witness at a concrete announcement with `posted_at` absent and
`created_at = "2024-02-02T00:00Z"`. -/
theorem C10_phase_timestamps_witness :
    bootstrapRecordedTs ⟨7, none, none, none, some ("2024-02-02T00:00Z".data), none⟩ =
      "2024-02-02T00:00Z".data ∧
    steadyRecordedTs ⟨7, none, none, none, some ("2024-02-02T00:00Z".data), none⟩ = [] ∧
    bootstrapRecordedTs ⟨7, none, none, none, some ("2024-02-02T00:00Z".data), none⟩ ≠
      steadyRecordedTs ⟨7, none, none, none, some ("2024-02-02T00:00Z".data), none⟩ :=
  C10_phase_timestamps _ _ (Or.inl rfl) rfl (by decide)

/-! ### C4: the truncation is applied after the links section is appended -/

/-- C4 counterexample: with a 2000-character stripped body and one
extracted link, the delivered description (the code truncates the body
*after* the Links section was appended, `body += ...` at the call site and
`body[:1800] + "..."` inside the notifier) differs from what the claim
describes (truncating before appending, links delivered in full): the
description is just the first 1800 body characters plus the ellipsis, and
the links section is cut away entirely. -/
theorem C4_counterexample :
    truncDesc (composeBody (List.replicate 2000 'x') ["[t](u)".data]) ≠
      composeBody (truncDesc (List.replicate 2000 'x')) ["[t](u)".data] ∧
    truncDesc (composeBody (List.replicate 2000 'x') ["[t](u)".data]) =
      List.replicate 1800 'x' ++ ('.' :: '.' :: '.' :: []) := by
  have hlink : (["[t](u)".data] : List Str) ≠ [] := by simp
  have hcomp : composeBody (List.replicate 2000 'x') ["[t](u)".data] =
      List.replicate 2000 'x' ++ "\n\n🔗 **Links:**\n".data ++ joinNL ["[t](u)".data] := by
    rw [composeBody, if_neg hlink]
  have hlen : 1900 < (composeBody (List.replicate 2000 'x') ["[t](u)".data]).length := by
    rw [hcomp, List.append_assoc, List.length_append, List.length_replicate]
    omega
  have htr2000 : truncDesc (List.replicate 2000 'x') =
      List.replicate 1800 'x' ++ ('.' :: '.' :: '.' :: []) := by
    rw [truncDesc, if_pos (by rw [List.length_replicate]; omega), List.take_replicate]
    have hm : (1800 : Nat) ⊓ 2000 = 1800 := by omega
    rw [hm]
  have hmain : truncDesc (composeBody (List.replicate 2000 'x') ["[t](u)".data]) =
      List.replicate 1800 'x' ++ ('.' :: '.' :: '.' :: []) := by
    rw [truncDesc, if_pos hlen, hcomp, List.append_assoc,
      List.take_append_of_le_length (by rw [List.length_replicate]; omega),
      List.take_replicate]
    have hm : (1800 : Nat) ⊓ 2000 = 1800 := by omega
    rw [hm]
  refine ⟨?_, hmain⟩
  intro heq
  have hlens := congrArg List.length heq
  rw [hmain, composeBody, if_neg hlink, htr2000, List.append_assoc, List.append_assoc,
    List.length_append, List.length_append, List.length_replicate,
    List.length_append] at hlens
  have hpos : 0 < ("\n\n🔗 **Links:**\n".data ++ joinNL ["[t](u)".data]).length := by decide
  omega

/-- C4 (amended): the 1900/1800-character truncation is applied to the
body *after* the extracted-links section has been appended, so the links
section is subject to the same length budget; in particular whenever the
stripped body alone is at least 1800 characters and the composed body
exceeds 1900, the delivered description consists solely of the first 1800
characters of the stripped body plus the ellipsis — none of the links
section survives. -/
theorem C4_truncation_after_links (stripped : Str) (links : List Str)
    (h1 : 1800 ≤ stripped.length)
    (h2 : 1900 < (composeBody stripped links).length) :
    truncDesc (composeBody stripped links) =
      stripped.take 1800 ++ ('.' :: '.' :: '.' :: []) := by
  rw [truncDesc, if_pos h2]
  congr 1
  by_cases hl : links = []
  · simp [composeBody, hl]
  · rw [composeBody, if_neg hl, List.append_assoc,
      List.take_append_of_le_length h1]

/-- C4 witness for the amended statement at the counterexample's input. -/
theorem C4_truncation_after_links_witness :
    truncDesc (composeBody (List.replicate 2000 'x') ["[t](u)".data]) =
      (List.replicate 2000 'x').take 1800 ++ ('.' :: '.' :: '.' :: []) :=
  C4_truncation_after_links (List.replicate 2000 'x') ["[t](u)".data]
    (by rw [List.length_replicate]; omega)
    (by
      rw [composeBody, if_neg (by simp), List.append_assoc, List.length_append,
        List.length_replicate]
      omega)

/-! ### The steady-state loop can never reach the webhook (C2 machinery) -/

theorem course_roles_strV (s : Str) : course_roles (.strV s) = .err .valueError := by
  simp [course_roles, pyIndex, COURSE_IDS, pyIndexAux, pyEqInt]

theorem steadyTopicStep_id (oracle : Nat → Bool) (courseMap : Int → Option Str)
    (cid : Int) (st : SteadyState) (t : Topic) :
    steadyTopicStep oracle courseMap cid st t = st := by
  obtain ⟨se, de, sa, fe⟩ := st
  rw [steadyTopicStep]
  split
  · rfl
  · dsimp only
    rw [send_to_discord.eq_def, course_roles_strV]
    simp

theorem foldl_fixed {α β : Type} (g : α → β → α) (h : ∀ s t, g s t = s) :
    ∀ (l : List β) (s : α), List.foldl g s l = s := by
  intro l
  induction l with
  | nil => intro s; rfl
  | cons x xs ih => intro s; rw [List.foldl_cons, h s x]; exact ih s

theorem steadyCoursesGo_state (oracle : Nat → Bool) (fetch : Int → Res (List Topic))
    (courseMap : Int → Option Str) :
    ∀ (l : List Int) (st : SteadyState),
      (steadyCoursesGo oracle fetch courseMap l st).seen = st.seen ∧
      (steadyCoursesGo oracle fetch courseMap l st).deliveries = st.deliveries ∧
      (steadyCoursesGo oracle fetch courseMap l st).saves = st.saves := by
  intro l
  induction l with
  | nil => intro st; exact ⟨rfl, rfl, rfl⟩
  | cons cid rest ih =>
    intro st
    rw [steadyCoursesGo]
    cases hf : fetch cid with
    | err e => exact ⟨rfl, rfl, rfl⟩
    | ok topics =>
      dsimp only
      rw [foldl_fixed (steadyTopicStep oracle courseMap cid)
        (steadyTopicStep_id oracle courseMap cid) (steadySortTopics topics)]
      exact ih _

theorem steadyRun_state (oracle : Nat → Bool) (fetchPlan : Nat → Int → Res (List Topic))
    (courseMap : Int → Option Str) :
    ∀ (n k : Nat) (st : SteadyState),
      (steadyRun oracle fetchPlan courseMap k n st).seen = st.seen ∧
      (steadyRun oracle fetchPlan courseMap k n st).deliveries = st.deliveries ∧
      (steadyRun oracle fetchPlan courseMap k n st).saves = st.saves := by
  intro n
  induction n with
  | zero => intro k st; exact ⟨rfl, rfl, rfl⟩
  | succ n ih =>
    intro k st
    rw [steadyRun]
    have hc := steadyCoursesGo_state oracle (fetchPlan k) courseMap COURSE_IDS st
    have hr := ih (k + 1) (steadyCycle oracle (fetchPlan k) courseMap st)
    rw [hr.1, hr.2.1, hr.2.2]
    exact hc

/-! ### C2: every steady-state delivery attempt raises before the POST -/

/-- C2: the steady-state loop invokes the notifier with the announcement
title in the course-id position; `COURSE_IDS.index` on a string probe
fails for every string (the list holds only integers), so
`send_to_discord` raises before any POST whenever its course-id argument
is a string — consequently any number of steady-state cycles attempts no
POST, adds nothing to the seen store, and never persists. -/
theorem C2_steady_never_delivers :
    (∀ s : Str, course_roles (.strV s) = .err .valueError) ∧
    (∀ s : Str, pyIndex COURSE_IDS (.strV s) = none) ∧
    (∀ (postOk : Bool) (s t : Str) (b : Option Str) (cn u a : Option Str)
       (atts : List Attachment) (pa : Option Str),
       send_to_discord postOk (.strV s) t b cn u a atts pa = ([], .err .valueError)) ∧
    (∀ (oracle : Nat → Bool) (courseMap : Int → Option Str) (cid : Int)
       (st : SteadyState) (t : Topic),
       steadyTopicStep oracle courseMap cid st t = st) ∧
    (∀ (oracle : Nat → Bool) (fetchPlan : Nat → Int → Res (List Topic))
       (courseMap : Int → Option Str) (n k : Nat) (st : SteadyState),
       (steadyRun oracle fetchPlan courseMap k n st).deliveries = st.deliveries ∧
       (steadyRun oracle fetchPlan courseMap k n st).seen = st.seen ∧
       (steadyRun oracle fetchPlan courseMap k n st).saves = st.saves) := by
  refine ⟨course_roles_strV, ?_, ?_, steadyTopicStep_id, ?_⟩
  · intro s
    simp [pyIndex, COURSE_IDS, pyIndexAux, pyEqInt]
  · intro postOk s t b cn u a atts pa
    rw [send_to_discord.eq_def, course_roles_strV]
  · intro oracle fetchPlan courseMap n k st
    have h := steadyRun_state oracle fetchPlan courseMap n k st
    exact ⟨h.2.1, h.1, h.2.2⟩

/-! ### C6: an announcement is marked seen only after a successful send -/

/-- C6: in the send-existing bootstrap, when the delivery attempt for an
unseen item errors, the seen store and the persisted snapshots are exactly
as before (state unchanged on error, so the item is retried later); the
identifier is inserted — and the store persisted — precisely when the send
call returns success.  In the steady-state loop no iteration ever changes
the seen store or persists (every send raises there). -/
theorem C6_marked_only_after_success (oracle : Nat → Bool) (courseMap : Int → Option Str)
    (st : RunState) (it : BItem) (e : PyErr)
    (hunseen : dictHasKey st.seen it.tid = false) :
    ((bootAttempt oracle courseMap st it).2 = .err e →
      (bootSendItem oracle courseMap st it).seen = st.seen ∧
      (bootSendItem oracle courseMap st it).saves = st.saves) ∧
    ((bootAttempt oracle courseMap st it).2 = .ok () →
      (bootSendItem oracle courseMap st it).seen = dictInsert st.seen it.tid it.posted ∧
      dictHasKey (bootSendItem oracle courseMap st it).seen it.tid = true ∧
      (bootSendItem oracle courseMap st it).saves =
        st.saves ++ [dictInsert st.seen it.tid it.posted]) ∧
    (∀ (cid : Int) (sst : SteadyState) (t : Topic),
      (steadyTopicStep oracle courseMap cid sst t).seen = sst.seen ∧
      (steadyTopicStep oracle courseMap cid sst t).saves = sst.saves) := by
  have hcond : ¬ dictHasKey st.seen it.tid = true := by rw [hunseen]; simp
  refine ⟨?_, ?_, ?_⟩
  · intro herr
    rw [bootSendItem.eq_def, if_neg hcond]
    dsimp only
    rw [herr]
    exact ⟨rfl, rfl⟩
  · intro hok
    rw [bootSendItem.eq_def, if_neg hcond]
    dsimp only
    rw [hok]
    refine ⟨rfl, ?_, rfl⟩
    simp [dictHasKey, dictLookup_insert_self]
  · intro cid sst t
    rw [steadyTopicStep_id]
    exact ⟨rfl, rfl⟩

/-- C6 witness: at a concrete unseen item, a failed POST leaves the store
and saves untouched, and a successful POST records the id and persists. -/
theorem C6_marked_only_after_success_witness :
    ((bootSendItem (fun _ => false) (fun _ => none) ⟨[], [], []⟩ exItem).seen = [] ∧
     (bootSendItem (fun _ => false) (fun _ => none) ⟨[], [], []⟩ exItem).saves = []) ∧
    ((bootSendItem (fun _ => true) (fun _ => none) ⟨[], [], []⟩ exItem).seen =
        dictInsert [] exItem.tid exItem.posted ∧
     dictHasKey (bootSendItem (fun _ => true) (fun _ => none) ⟨[], [], []⟩ exItem).seen
        exItem.tid = true ∧
     (bootSendItem (fun _ => true) (fun _ => none) ⟨[], [], []⟩ exItem).saves =
        [] ++ [dictInsert [] exItem.tid exItem.posted]) :=
  ⟨(C6_marked_only_after_success (fun _ => false) (fun _ => none) ⟨[], [], []⟩ exItem
      .httpError (by decide)).1 (by decide),
   (C6_marked_only_after_success (fun _ => true) (fun _ => none) ⟨[], [], []⟩ exItem
      .httpError (by decide)).2.1 (by decide)⟩

/-! ### C3: what a fetch failure aborts in each phase -/

/-- C3 counterexample: one steady-state cycle in which the first configured
course's fetch fails and every other course has an announcement; only the
failing course is ever fetched — the remaining nine courses of that cycle
are not fetched, contradicting the claim that they still run. -/
theorem C3_counterexample :
    (steadyCycle (fun _ => true) exFetchFail (fun _ => none) ⟨[], [], [], []⟩).fetched =
      [106566] ∧
    (106734 : Int) ∉
      (steadyCycle (fun _ => true) exFetchFail (fun _ => none) ⟨[], [], [], []⟩).fetched := by
  constructor
  · decide
  · decide

/-- C3 (amended): in the bootstrap collection pass a per-course
`try`/`except` contains a fetch failure, so a failing course contributes
nothing while every other course's items are still collected; in the
steady-state cycle the fetch is guarded only by the whole-cycle handler,
so a fetch failure ends the cycle at that course — the remaining courses
of that same cycle are not fetched or processed (the loop itself proceeds
to the next cycle with the state reached so far). -/
theorem C3_fetch_failure_scope (fetch : Int → Res (List Topic)) (oracle : Nat → Bool)
    (courseMap : Int → Option Str) (e : PyErr) :
    (∀ (l1 l2 : List Int) (c : Int), fetch c = .err e →
      collectInitial fetch (l1 ++ c :: l2) =
        collectInitial fetch l1 ++ collectInitial fetch l2) ∧
    (∀ (l2 : List Int) (c : Int) (st : SteadyState), fetch c = .err e →
      steadyCoursesGo oracle fetch courseMap (c :: l2) st =
        { st with fetched := st.fetched ++ [c] }) := by
  constructor
  · intro l1 l2 c herr
    rw [collectInitial, collectInitial, collectInitial,
      List.flatMap_append l1 (c :: l2), List.flatMap_cons, herr]
    simp
  · intro l2 c st herr
    rw [steadyCoursesGo, herr]

/-- C3 witness for the amended statement at a concrete failing fetch. -/
theorem C3_fetch_failure_scope_witness :
    collectInitial exFetchFail ([106734] ++ 106566 :: [107500]) =
      collectInitial exFetchFail [106734] ++ collectInitial exFetchFail [107500] ∧
    steadyCoursesGo (fun _ => true) exFetchFail (fun _ => none) (106566 :: [106734])
        ⟨[], [], [], []⟩ =
      { (⟨[], [], [], []⟩ : SteadyState) with fetched := ([] : List Int) ++ [106566] } :=
  ⟨(C3_fetch_failure_scope exFetchFail (fun _ => true) (fun _ => none) .fetchError).1
      [106734] [107500] 106566 (by decide),
   (C3_fetch_failure_scope exFetchFail (fun _ => true) (fun _ => none) .fetchError).2
      [106734] 106566 ⟨[], [], [], []⟩ (by decide)⟩

/-! ### C1: an identifier in the seen store is never delivered again -/

theorem bootSendItem_hasKey_mono (oracle : Nat → Bool) (courseMap : Int → Option Str)
    (st : RunState) (it : BItem) (tid : Str) (h : dictHasKey st.seen tid = true) :
    dictHasKey (bootSendItem oracle courseMap st it).seen tid = true := by
  rw [bootSendItem.eq_def]
  split
  · exact h
  · dsimp only
    split
    · exact dictHasKey_insert_mono st.seen it.tid tid it.posted h
    · exact h

theorem bootSendItem_deliv (oracle : Nat → Bool) (courseMap : Int → Option Str)
    (st : RunState) (it : BItem) (tid : Str)
    (hs : dictHasKey st.seen tid = true)
    (hmem : tid ∈ (bootSendItem oracle courseMap st it).deliveries.map Prod.fst) :
    tid ∈ st.deliveries.map Prod.fst := by
  rw [bootSendItem.eq_def] at hmem
  by_cases hk : dictHasKey st.seen it.tid = true
  · rw [if_pos hk] at hmem
    exact hmem
  · rw [if_neg hk] at hmem
    dsimp only at hmem
    have hmem' : tid ∈ (st.deliveries ++
        (bootAttempt oracle courseMap st it).1.map (fun p => (it.tid, p))).map Prod.fst := by
      split at hmem
      · exact hmem
      · exact hmem
    rw [List.map_append] at hmem'
    rcases List.mem_append.mp hmem' with h1 | h2
    · exact h1
    · exfalso
      rw [List.map_map] at h2
      rcases List.mem_map.mp h2 with ⟨p, hp, hfst⟩
      apply hk
      have : it.tid = tid := hfst
      rw [this]
      exact hs

theorem bootSendPass_cons (oracle : Nat → Bool) (courseMap : Int → Option Str)
    (it : BItem) (rest : List BItem) (st : RunState) :
    bootSendPass oracle courseMap (it :: rest) st =
      bootSendPass oracle courseMap rest (bootSendItem oracle courseMap st it) := rfl

theorem bootSendPass_no_redeliver (oracle : Nat → Bool) (courseMap : Int → Option Str) :
    ∀ (items : List BItem) (st : RunState) (tid : Str),
      dictHasKey st.seen tid = true →
      dictHasKey (bootSendPass oracle courseMap items st).seen tid = true ∧
      (tid ∈ (bootSendPass oracle courseMap items st).deliveries.map Prod.fst →
        tid ∈ st.deliveries.map Prod.fst) := by
  intro items
  induction items with
  | nil => intro st tid h; exact ⟨h, fun hm => hm⟩
  | cons it rest ih =>
    intro st tid h
    have h1 := bootSendItem_hasKey_mono oracle courseMap st it tid h
    have hr := ih (bootSendItem oracle courseMap st it) tid h1
    constructor
    · rw [bootSendPass_cons]
      exact hr.1
    · rw [bootSendPass_cons]
      intro hm
      exact bootSendItem_deliv oracle courseMap st it tid h (hr.2 hm)

theorem runBootstrap_no_redeliver (initialRunSend : Bool) (oracle : Nat → Bool)
    (courseMap : Int → Option Str) (fetch : Int → Res (List Topic))
    (seen0 : Dict) (tid : Str) (h : dictHasKey seen0 tid = true) :
    tid ∉ (runBootstrap initialRunSend oracle courseMap fetch seen0).deliveries.map Prod.fst := by
  intro hmem
  rw [runBootstrap.eq_def] at hmem
  dsimp only at hmem
  split at hmem
  · simp at hmem
  · have := (bootSendPass_no_redeliver oracle courseMap
      (sortItems (collectInitial fetch COURSE_IDS)) ⟨seen0, [], []⟩ tid h).2 hmem
    simp at this

/-- C1: once an announcement identifier is a key of the seen store, no
later delivery attempt of the run — bootstrap (either mode) or any number
of steady-state cycles — POSTs that announcement again, whatever its
content, the network outcomes, and the fetched batches are.  (Since the
starting store is universally quantified, this applies from any point at
which the identifier has entered the store.) -/
theorem C1_seen_never_redelivered (initialRunSend : Bool) (oracle : Nat → Bool)
    (courseMap : Int → Option Str) (bfetch : Int → Res (List Topic))
    (fetchPlan : Nat → Int → Res (List Topic)) (n : Nat) (seen0 : Dict) (tid : Str)
    (h : dictHasKey seen0 tid = true) :
    tid ∉ (runDeliveries initialRunSend oracle courseMap bfetch fetchPlan n seen0).map
      Prod.fst := by
  intro hmem
  rw [runDeliveries] at hmem
  rw [List.map_append] at hmem
  rcases List.mem_append.mp hmem with hb | hsd
  · exact runBootstrap_no_redeliver initialRunSend oracle courseMap bfetch seen0 tid h hb
  · rw [(steadyRun_state oracle fetchPlan courseMap n 0 _).2.1] at hsd
    simp at hsd

/-- C1 witness: with `"5"` already in the store and a fetch schedule that
returns announcement id 5, the whole run (bootstrap + one cycle) never
POSTs id `"5"`. -/
theorem C1_seen_never_redelivered_witness :
    dictHasKey [("5".data, "x".data)] ("5".data) = true ∧
    ("5".data) ∉ (runDeliveries true (fun _ => true) (fun _ => none) exFetch
      (fun _ => exFetch) 1 [("5".data, "x".data)]).map Prod.fst :=
  ⟨by decide,
   C1_seen_never_redelivered true (fun _ => true) (fun _ => none) exFetch
     (fun _ => exFetch) 1 [("5".data, "x".data)] ("5".data) (by decide)⟩

/-! ### C8: link extraction -/

theorem extract_filterMap_eq_filter :
    ∀ l : List (Str × Str),
      l.filterMap (fun p =>
        if strip_html p.2 ≠ [] && htmlUnescape p.1 ≠ [] then
          some (strip_html p.2, htmlUnescape p.1)
        else none) =
      (l.map (fun q => (strip_html q.2, htmlUnescape q.1))).filter
        (fun p => p.1 ≠ [] && p.2 ≠ []) := by
  intro l
  induction l with
  | nil => rfl
  | cons p l ih =>
    rw [List.filterMap_cons, List.map_cons, List.filter_cons]
    by_cases hc : (strip_html p.2 ≠ [] && htmlUnescape p.1 ≠ []) = true
    · rw [if_pos hc, ih]
      have : ((strip_html p.2, htmlUnescape p.1).1 ≠ [] &&
          (strip_html p.2, htmlUnescape p.1).2 ≠ []) = true := hc
      rw [if_pos this]
    · rw [if_neg hc, ih]
      have : ¬ ((strip_html p.2, htmlUnescape p.1).1 ≠ [] &&
          (strip_html p.2, htmlUnescape p.1).2 ≠ []) = true := hc
      rw [if_neg this]

/-- C8: `extract_named_links` keeps, in document order, exactly those
scanned anchor pairs whose markup-stripped inner text and entity-decoded
URL are both non-empty; on
`<a href="http://x">Click</a> and <a href="http://y"></a>` it keeps
exactly the one pair with text `Click` and URL `http://x` (rendered
`[Click](http://x)`), dropping the empty-text anchor; the scan is
case-insensitive (`<A HREF="u">t</A>` is also extracted). -/
theorem C8_extract_named_links :
    (∀ s : Str, extractPairs s =
      ((findAnchors s).map (fun q => (strip_html q.2, htmlUnescape q.1))).filter
        (fun p => p.1 ≠ [] && p.2 ≠ [])) ∧
    extractPairs ("<a href=\"http://x\">Click</a> and <a href=\"http://y\"></a>".data) =
      [("Click".data, "http://x".data)] ∧
    extract_named_links ("<a href=\"http://x\">Click</a> and <a href=\"http://y\"></a>".data) =
      ["[Click](http://x)".data] ∧
    extractPairs ("<A HREF=\"u\">t</A>".data) = [("t".data, "u".data)] := by
  refine ⟨?_, by decide, by decide, by decide⟩
  intro s
  rw [extractPairs]
  exact extract_filterMap_eq_filter (findAnchors s)

/-! ### C7: bootstrap ordering -/

/-- A bootstrap item with a given effective timestamp, for ordering
examples. -/
def tsItem (n : Int) (ts : Str) : BItem :=
  { cid := 0
    t := { id := n, title := none, message := none, posted_at := some ts,
           created_at := none, html_url := none }
    tid := (toString n).data
    posted := ts }

theorem strLe_eq_nil_of_le_nil {s : Str} (h : strLe s [] = true) : s = [] := by
  cases s with
  | nil => rfl
  | cons c cs => exact absurd h (by rw [strLe_nil_right]; simp)

/-- C7: the bootstrap pass orders the collected items with a stable
ascending sort on the effective-timestamp key compared as strings: the
output is a permutation of the input, pairwise ordered by the key,
key-compatible subsequences (hence the relative order of equal keys) are
preserved, every item preceding an empty-timestamp item also has the empty
timestamp, and on timestamps `[c, a, "", b]` (with `a < b < c`) the order
becomes `["", a, b, c]`. -/
theorem C7_bootstrap_ordering :
    (∀ items : List BItem, (sortItems items).Perm items) ∧
    (∀ items : List BItem, (sortItems items).Pairwise bootKeyLe) ∧
    (∀ (items c : List BItem), c.Pairwise bootKeyLe → c.Sublist items →
      c.Sublist (sortItems items)) ∧
    (∀ (items pre post : List BItem) (it : BItem),
      sortItems items = pre ++ it :: post → it.posted = [] →
      ∀ p ∈ pre, p.posted = []) ∧
    sortItems [tsItem 1 ("2024-03".data), tsItem 2 ("2024-01".data), tsItem 3 [],
        tsItem 4 ("2024-02".data)] =
      [tsItem 3 [], tsItem 2 ("2024-01".data), tsItem 4 ("2024-02".data),
        tsItem 1 ("2024-03".data)] := by
  refine ⟨?_, ?_, ?_, ?_, by decide⟩
  · intro items
    exact List.perm_insertionSort bootKeyLe items
  · intro items
    exact List.sorted_insertionSort bootKeyLe items
  · intro items c hp hs
    exact List.sublist_insertionSort hp hs
  · intro items pre post it hsort hempty p hp
    have hpw : (sortItems items).Pairwise bootKeyLe :=
      List.sorted_insertionSort bootKeyLe items
    rw [hsort] at hpw
    have hrel := (List.pairwise_append.mp hpw).2.2 p hp it (List.mem_cons_self ..)
    rw [bootKeyLe, hempty] at hrel
    exact strLe_eq_nil_of_le_nil hrel

/-- C7 witness: the stability and empty-first conjuncts at concrete
inputs. -/
theorem C7_bootstrap_ordering_witness :
    ([tsItem 2 ("2024-01".data), tsItem 4 ("2024-02".data)].Sublist
      (sortItems [tsItem 1 ("2024-03".data), tsItem 2 ("2024-01".data), tsItem 3 [],
        tsItem 4 ("2024-02".data)])) ∧
    (∀ p ∈ [tsItem 2 ([] : Str)], p.posted = []) := by
  constructor
  · exact C7_bootstrap_ordering.2.2.1
      [tsItem 1 ("2024-03".data), tsItem 2 ("2024-01".data), tsItem 3 [],
        tsItem 4 ("2024-02".data)]
      [tsItem 2 ("2024-01".data), tsItem 4 ("2024-02".data)] (by decide) (by decide)
  · exact C7_bootstrap_ordering.2.2.2.1
      [tsItem 1 ("x".data), tsItem 2 [], tsItem 3 []]
      [tsItem 2 []] [tsItem 1 ("x".data)] (tsItem 3 []) (by decide) rfl

/-! ### C9: idempotence of the mark-only bootstrap -/

theorem hasKey_iff_mem_keys (d : Dict) (k : Str) :
    dictHasKey d k = true ↔ k ∈ dictKeys d := by
  induction d with
  | nil => simp [dictHasKey, dictLookup, dictKeys]
  | cons p d ih =>
    obtain ⟨k0, v0⟩ := p
    by_cases h : k0 = k
    · subst h
      simp [dictHasKey, dictLookup, dictKeys]
    · simp only [dictHasKey, dictLookup, if_neg h, dictKeys, List.map_cons, List.mem_cons]
      rw [dictHasKey, dictKeys] at ih
      rw [ih]
      constructor
      · intro hm; exact Or.inr hm
      · intro hm
        rcases hm with hm | hm
        · exact absurd hm.symm h
        · exact hm

theorem dictKeys_insert_mem (d : Dict) (k v : Str) (h : k ∈ dictKeys d) :
    dictKeys (dictInsert d k v) = dictKeys d := by
  induction d with
  | nil => simp [dictKeys] at h
  | cons p d ih =>
    obtain ⟨k0, v0⟩ := p
    by_cases h0 : k0 = k
    · subst h0
      simp [dictInsert, dictKeys]
    · have hm : k ∈ dictKeys d := by
        rcases List.mem_cons.mp h with hk | hk
        · exact absurd hk.symm h0
        · exact hk
      simp only [dictInsert, if_neg h0]
      show k0 :: dictKeys (dictInsert d k v) = k0 :: dictKeys d
      rw [ih hm]

theorem dictInsert_not_mem (d : Dict) (k v : Str) (h : k ∉ dictKeys d) :
    dictInsert d k v = d ++ [(k, v)] := by
  induction d with
  | nil => rfl
  | cons p d ih =>
    obtain ⟨k0, v0⟩ := p
    have h0 : k0 ≠ k := by
      intro hk
      exact h (by simp [dictKeys, hk])
    have hm : k ∉ dictKeys d := fun hk => h (by simp [dictKeys] at hk ⊢; exact Or.inr hk)
    simp [dictInsert, h0, ih hm]

theorem nodup_dictInsert (d : Dict) (k v : Str) (h : (dictKeys d).Nodup) :
    (dictKeys (dictInsert d k v)).Nodup := by
  by_cases hm : k ∈ dictKeys d
  · rw [dictKeys_insert_mem d k v hm]
    exact h
  · rw [dictInsert_not_mem d k v hm]
    rw [dictKeys, List.map_append]
    rw [dictKeys] at h hm
    simp [List.nodup_append, h, hm]

theorem dictInsert_eq_map (d : Dict) (k v : Str) (hnd : (dictKeys d).Nodup)
    (h : k ∈ dictKeys d) :
    dictInsert d k v = d.map (fun p => if p.1 = k then (k, v) else p) := by
  induction d with
  | nil => simp [dictKeys] at h
  | cons p d ih =>
    obtain ⟨k0, v0⟩ := p
    rw [dictKeys, List.map_cons, List.nodup_cons] at hnd
    by_cases h0 : k0 = k
    · subst h0
      have hrest : ∀ q ∈ d, (if q.1 = k0 then (k0, v) else q) = q := by
        intro q hq
        have hne : q.1 ≠ k0 := by
          intro he
          have h1 : q.1 ∈ List.map Prod.fst d := List.mem_map.mpr ⟨q, hq, rfl⟩
          rw [he] at h1
          exact hnd.1 h1
        rw [if_neg hne]
      rw [dictInsert, if_pos rfl, List.map_cons]
      rw [List.map_congr_left hrest]
      simp
    · have hm : k ∈ dictKeys d := by
        rcases List.mem_cons.mp h with hk | hk
        · exact absurd hk.symm h0
        · exact hk
      rw [dictInsert, if_neg h0, List.map_cons, if_neg h0]
      rw [ih hnd.2 hm]

theorem lookup_of_mem_nodup (d : Dict) (hnd : (dictKeys d).Nodup) (p : Str × Str)
    (hp : p ∈ d) : dictLookup d p.1 = some p.2 := by
  induction d with
  | nil => simp at hp
  | cons q d ih =>
    obtain ⟨k0, v0⟩ := q
    rw [dictKeys, List.map_cons, List.nodup_cons] at hnd
    rcases List.mem_cons.mp hp with hq | hq
    · subst hq
      simp [dictLookup]
    · have hne : k0 ≠ p.1 := by
        intro he
        have h1 : p.1 ∈ List.map Prod.fst d := List.mem_map.mpr ⟨p, hq, rfl⟩
        rw [← he] at h1
        exact hnd.1 h1
      rw [dictLookup, if_neg hne]
      exact ih hnd.2 hq

/-- The value the mark-only pass ends up storing under key `k`: the
`posted` of the last batch item with that id, if any. -/
def lastAssign (items : List BItem) (k : Str) : Option Str :=
  match items with
  | [] => none
  | it :: rest =>
    match lastAssign rest k with
    | some v => some v
    | none => if it.tid = k then some it.posted else none

theorem markOnlyPass_cons (it : BItem) (rest : List BItem) (d : Dict) :
    markOnlyPass (it :: rest) d = markOnlyPass rest (dictInsert d it.tid it.posted) := rfl

theorem lastAssign_lookup (items : List BItem) :
    ∀ (d : Dict) (k : Str),
      dictLookup (markOnlyPass items d) k =
        match lastAssign items k with
        | some v => some v
        | none => dictLookup d k := by
  induction items with
  | nil => intro d k; rfl
  | cons it rest ih =>
    intro d k
    rw [markOnlyPass_cons, ih]
    rw [lastAssign]
    cases hr : lastAssign rest k with
    | some v => rfl
    | none =>
      by_cases ht : it.tid = k
      · subst ht
        rw [dictLookup_insert_self]
        simp
      · rw [dictLookup_insert_ne d it.tid k it.posted ht]
        simp [ht]

theorem lastAssign_isSome_of_mem (items : List BItem) (it : BItem) (h : it ∈ items) :
    (lastAssign items it.tid).isSome = true := by
  induction items with
  | nil => simp at h
  | cons hd rest ih =>
    rw [lastAssign]
    cases hr : lastAssign rest it.tid with
    | some v => rfl
    | none =>
      rcases List.mem_cons.mp h with hq | hq
      · subst hq
        simp
      · have := ih hq
        rw [hr] at this
        simp at this

theorem nodup_markOnlyPass (items : List BItem) :
    ∀ d : Dict, (dictKeys d).Nodup → (dictKeys (markOnlyPass items d)).Nodup := by
  induction items with
  | nil => intro d h; exact h
  | cons it rest ih =>
    intro d h
    rw [markOnlyPass_cons]
    exact ih _ (nodup_dictInsert d it.tid it.posted h)

theorem markOnlyPass_eq_map (items : List BItem) :
    ∀ d : Dict, (dictKeys d).Nodup → (∀ it ∈ items, it.tid ∈ dictKeys d) →
      markOnlyPass items d = d.map (fun p =>
        match lastAssign items p.1 with
        | some v => (p.1, v)
        | none => p) := by
  induction items with
  | nil =>
    intro d _ _
    have hid : ∀ p ∈ d, (fun p : Str × Str =>
        match lastAssign [] p.1 with
        | some v => (p.1, v)
        | none => p) p = p := by
      intro p _
      rfl
    rw [List.map_congr_left hid]
    simp [markOnlyPass]
  | cons it rest ih =>
    intro d hnd hkeys
    have hmem : it.tid ∈ dictKeys d := hkeys it (List.mem_cons_self ..)
    rw [markOnlyPass_cons, dictInsert_eq_map d it.tid it.posted hnd hmem] at *
    have hkeys' : dictKeys (d.map (fun p => if p.1 = it.tid then (it.tid, it.posted) else p)) =
        dictKeys d := by
      rw [dictKeys, List.map_map, dictKeys]
      apply List.map_congr_left
      intro p _
      by_cases hp : p.1 = it.tid
      · simp [Function.comp, hp]
      · simp [Function.comp, hp]
    have hnd' : (dictKeys (d.map (fun p => if p.1 = it.tid then (it.tid, it.posted) else p))).Nodup := by
      rw [hkeys']
      exact hnd
    have hk' : ∀ it' ∈ rest, it'.tid ∈
        dictKeys (d.map (fun p => if p.1 = it.tid then (it.tid, it.posted) else p)) := by
      intro it' hit'
      rw [hkeys']
      exact hkeys it' (List.mem_cons_of_mem _ hit')
    rw [ih _ hnd' hk', List.map_map]
    apply List.map_congr_left
    intro p _
    by_cases hp : p.1 = it.tid
    · simp only [Function.comp, if_pos hp]
      rw [lastAssign, hp]
      cases lastAssign rest it.tid with
      | some v => rfl
      | none => simp
    · simp only [Function.comp, if_neg hp]
      rw [lastAssign]
      have hne : ¬ it.tid = p.1 := fun he => hp he.symm
      cases lastAssign rest p.1 with
      | some v => rfl
      | none => simp [hne]

/-- C9: the mark-only bootstrap is idempotent on the seen store — for any
fetched batch and any initial store (well-formed, i.e. without duplicate
keys, as any store loaded from the JSON file is), running
`seen[tid] = posted` over the whole batch twice leaves exactly the store
one run produces. -/
theorem C9_mark_only_idempotent (items : List BItem) (seen : Dict)
    (hnd : (dictKeys seen).Nodup) :
    markOnlyPass items (markOnlyPass items seen) = markOnlyPass items seen := by
  have hnd1 := nodup_markOnlyPass items seen hnd
  have hkeys : ∀ it ∈ items, it.tid ∈ dictKeys (markOnlyPass items seen) := by
    intro it hit
    have hs := lastAssign_isSome_of_mem items it hit
    rw [← hasKey_iff_mem_keys, dictHasKey, lastAssign_lookup items seen it.tid]
    cases ha : lastAssign items it.tid with
    | none => rw [ha] at hs; simp at hs
    | some v => rfl
  rw [markOnlyPass_eq_map items (markOnlyPass items seen) hnd1 hkeys]
  have hfix : ∀ p ∈ markOnlyPass items seen, (fun p : Str × Str =>
      match lastAssign items p.1 with
      | some v => (p.1, v)
      | none => p) p = p := by
    intro p hp
    cases ha : lastAssign items p.1 with
    | none => simp only [ha]
    | some v =>
      simp only [ha]
      have hl := lastAssign_lookup items seen p.1
      rw [ha] at hl
      have hl2 := lookup_of_mem_nodup _ hnd1 p hp
      rw [hl2] at hl
      have hv : p.2 = v := by
        have := Option.some.injEq .. ▸ hl
        exact this
      rw [← hv]
  rw [List.map_congr_left hfix]
  simp

/-- C9 witness at a concrete batch (with a repeated id) and store. -/
theorem C9_mark_only_idempotent_witness :
    markOnlyPass [tsItem 1 ("a".data), tsItem 2 ("b".data), tsItem 1 ("c".data)]
        (markOnlyPass [tsItem 1 ("a".data), tsItem 2 ("b".data), tsItem 1 ("c".data)]
          [("9".data, "z".data)]) =
      markOnlyPass [tsItem 1 ("a".data), tsItem 2 ("b".data), tsItem 1 ("c".data)]
        [("9".data, "z".data)] :=
  C9_mark_only_idempotent
    [tsItem 1 ("a".data), tsItem 2 ("b".data), tsItem 1 ("c".data)]
    [("9".data, "z".data)] (by decide)
